import Mathlib

/-!
Verification of the truncation and excerpting core of the agent-chat-search
repository (src/lib/snippets.ts, plus the caller guard in src/readers/base.ts).

Documents are modelled as `List Char` (JS strings as sequences of code units),
positions and lengths as `Int` (JS numbers at integer values), and the one
place where JS produces a fractional number (the approximate inter-window
offset in `extractMultiMatchSnippet`) as `ℚ`.
-/

namespace ChatSearch

/-- A half-open interval over code-unit positions, the JS object
`\x7b start, end \x7d`.  The JS field `end` is a Lean keyword, so it is named
`stop` here. -/
structure Range where
  start : Int
  stop : Int
deriving DecidableEq, Repr

/-- A match position inside the combined excerpt produced by
`extractMultiMatchSnippet`.  The source computes these with JS number
division, which can be fractional, so the fields are rationals. -/
structure RatRange where
  start : ℚ
  stop : ℚ
deriving DecidableEq, Repr

/-- Coerce an integer range to a rational one (the identity embedding used
when the source returns the input matches unchanged). -/
def Range.toRat (r : Range) : RatRange :=
  ⟨(r.start : ℚ), (r.stop : ℚ)⟩

/-- The `truncation_type` enum of `TruncationMetadata`. -/
inductive TruncationType
  | none
  | snippet
  | length
  | token
deriving DecidableEq, Repr

/-- The `TruncationMetadata` record of src/types.ts. -/
structure TruncationMetadata where
  content_truncated : Bool
  original_length : Int
  snippet_start : Int
  snippet_end : Int
  truncation_type : TruncationType
deriving DecidableEq, Repr

/-- `CHARS_PER_TOKEN` from the source. -/
def CHARS_PER_TOKEN : Nat := 4

/-- `MAX_WORD_BOUNDARY_SEARCH` from the source. -/
def MAX_WORD_BOUNDARY_SEARCH : Nat := 20

/-- `estimateTokens`: `Math.ceil(text.length / 4)`. -/
def estimateTokens (text : List Char) : Nat :=
  (text.length + (CHARS_PER_TOKEN - 1)) / CHARS_PER_TOKEN

/-- `isWordBoundary`: the regex class
`[\s\n\r\t.,;:!?()[\]\x7b\x7d'"\/\-]` tested on one character, written out as
the set of code points it accepts (`\s` is the full JS whitespace set). -/
def isWordBoundary (c : Char) : Bool :=
  let n := c.toNat
  n ∈ [9, 10, 11, 12, 13, 32, 160, 5760, 8232, 8233, 8239, 8287, 12288, 65279,
       46, 44, 59, 58, 33, 63, 40, 41, 91, 93, 123, 125, 39, 34, 47, 45]
  || (8192 ≤ n && n ≤ 8202)

/-- The two search directions of `findWordBoundary`. -/
inductive Direction
  | backward
  | forward
deriving DecidableEq, Repr

/-- The index scanned at step `j` of the `findWordBoundary` loop starting
from position `p`: `p - j` backward, `p + j` forward. -/
def stepIdx (dir : Direction) (p j : Nat) : Nat :=
  match dir with
  | Direction.backward => p - j
  | Direction.forward => p + j

/-- `stepIdx` computes `p - j` in the backward direction. -/
theorem stepIdx_backward (p j : Nat) : stepIdx Direction.backward p j = p - j := rfl

/-- `stepIdx` computes `p + j` in the forward direction. -/
theorem stepIdx_forward (p j : Nat) : stepIdx Direction.forward p j = p + j := rfl

/-- Whether the character at index `j` is a boundary.  Out-of-range access in
JS yields `undefined`, which the regex test rejects, so the default character
is a non-boundary one. -/
def boundaryAt (content : List Char) (j : Nat) : Bool :=
  isWordBoundary (content.getD j 'a')

/-- The search loop of `findWordBoundary`: starting at offset `i` with `d`
steps of fuel remaining, return the first scanned index whose character is a
boundary, and `p` if the fuel runs out. -/
def scanBoundary (content : List Char) (p : Nat) (dir : Direction) : Nat → Nat → Nat
  | _, 0 => p
  | i, d + 1 =>
    if boundaryAt content (stepIdx dir p i) then stepIdx dir p i
    else scanBoundary content p dir (i + 1) d

/-- `searchDistance` from the source:
`Math.min(MAX_WORD_BOUNDARY_SEARCH, direction === 'backward' ? position : content.length - position)`. -/
def searchDistance (content : List Char) (p : Nat) (dir : Direction) : Nat :=
  min MAX_WORD_BOUNDARY_SEARCH
    (match dir with
     | Direction.backward => p
     | Direction.forward => content.length - p)

/-- `findWordBoundary` from the source. -/
def findWordBoundary (content : List Char) (position : Int) (direction : Direction) : Int :=
  if position ≤ 0 then 0
  else if (content.length : Int) ≤ position then (content.length : Int)
  else
    let p := position.toNat
    (scanBoundary content p direction 0 (searchDistance content p direction) : Int)

/-- JS `String.prototype.substring`: both arguments are clamped to
`[0, length]` and swapped if out of order. -/
def jsSubstring (content : List Char) (a b : Int) : List Char :=
  let len : Int := content.length
  let a' := (min (max a 0) len).toNat
  let b' := (min (max b 0) len).toNat
  (content.take (max a' b')).drop (min a' b')

/-- Result record of `extractSnippet`. -/
structure SnippetResult where
  snippet : List Char
  metadata : TruncationMetadata
deriving DecidableEq, Repr

/-- `extractSnippet` from the source. -/
def extractSnippet (content : List Char) (matchStart matchEnd : Int)
    (snippetSize : Int) : SnippetResult :=
  if content.length = 0 then
    ⟨[], ⟨false, 0, 0, 0, TruncationType.none⟩⟩
  else
    let originalLength : Int := content.length
    if originalLength ≤ snippetSize * 2 + (matchEnd - matchStart) then
      ⟨content, ⟨false, originalLength, 0, originalLength, TruncationType.none⟩⟩
    else
      let snippetStart := findWordBoundary content (max 0 (matchStart - snippetSize)) Direction.backward
      let snippetEnd := findWordBoundary content (min originalLength (matchEnd + snippetSize)) Direction.forward
      ⟨jsSubstring content snippetStart snippetEnd,
       ⟨true, originalLength, snippetStart, snippetEnd, TruncationType.snippet⟩⟩

/-- The comparison used by `sortRanges` (ascending by `start`). -/
def rle (a b : Range) : Prop := a.start ≤ b.start

instance : DecidableRel rle := fun a b => inferInstanceAs (Decidable (a.start ≤ b.start))

instance : IsTotal Range rle := ⟨fun a b => Int.le_total a.start b.start⟩

instance : IsTrans Range rle := ⟨fun _ _ _ h h' => le_trans h h'⟩

/-- `sortRanges`: a stable sort by `start` ascending (JS `Array.prototype.sort`
with comparator `a.start - b.start` is stable, which insertion sort matches). -/
def sortRanges (ranges : List Range) : List Range :=
  List.insertionSort rle ranges

/-- The merging loop of `mergeOverlappingRanges`: `current` is the
accumulating range, and each next sorted range either merges into it (when it
starts within 10 units of the accumulated end) or closes it off. -/
def mergeGo (current : Range) : List Range → List Range
  | [] => [current]
  | next :: rest =>
    if next.start ≤ current.stop + 10 then
      mergeGo ⟨current.start, max current.stop next.stop⟩ rest
    else
      current :: mergeGo next rest

/-- `mergeOverlappingRanges` from the source. -/
def mergeOverlappingRanges (ranges : List Range) : List Range :=
  if ranges.length ≤ 1 then ranges
  else
    match sortRanges ranges with
    | [] => []
    | r :: rest => mergeGo r rest

/-- The literal `' [...] '` separator inserted between distant pieces. -/
def separatorToken : List Char := [' ', '[', '.', '.', '.', ']', ' ']

/-- The literal `'...'` ellipsis marker. -/
def ellipsis : List Char := ['.', '.', '.']

/-- One piece of the combined multi-match excerpt: the consolidated range
snapped to word boundaries, with the ellipsis prefix on the first piece when
it does not start at the document start, and the ellipsis suffix on the last
piece when it does not end at the document end. -/
def buildPiece (content : List Char) (isFirst isLast : Bool) (r : Range) : List Char :=
  let snippetStart := findWordBoundary content r.start Direction.backward
  let snippetEnd := findWordBoundary content r.stop Direction.forward
  let pre := if 0 < snippetStart ∧ isFirst = true then ellipsis else []
  let suf := if snippetEnd < (content.length : Int) ∧ isLast = true then ellipsis else []
  pre ++ jsSubstring content snippetStart snippetEnd ++ suf

/-- The piece-building loop of `extractMultiMatchSnippet`: emits a separator
before a range that starts more than 10 units after the previous range's end,
then the piece itself. -/
def buildParts (content : List Char) (prev : Option Range) (isFirst : Bool) :
    List Range → List Char
  | [] => []
  | r :: rest =>
    let sep := match prev with
      | Option.some p => if p.stop + 10 < r.start then separatorToken else []
      | Option.none => []
    sep ++ buildPiece content isFirst rest.isEmpty r
      ++ buildParts content (Option.some r) false rest

/-- The inner search of the remapping loop: the first merged range containing
the match, together with its index (the JS code recovers the index with
`indexOf`, which agrees because merged ranges are pairwise distinct). -/
def findContaining (m : Range) : Nat → List Range → Option (Nat × Range)
  | _, [] => Option.none
  | j, r :: rest =>
    if r.start ≤ m.start ∧ m.stop ≤ r.stop then Option.some (j, r)
    else findContaining m (j + 1) rest

/-- The match-position remapping loop of `extractMultiMatchSnippet`.  For each
match it emits a position relative to its containing merged window, then
advances `currentOffset` by the JS expression
`combinedSnippet.length / mergedRanges.length + 7` whenever there is more than
one merged range — a number division that is approximate (and can be
fractional), which is why the offset is a rational. -/
def adjustGo (content : List Char) (merged : List Range) (combinedLen : Nat) :
    ℚ → List Range → List RatRange
  | _, [] => []
  | currentOffset, m :: ms =>
    let here : List RatRange :=
      match findContaining m 0 merged with
      | Option.some (j, r) =>
        let rangeStart := findWordBoundary content r.start Direction.backward
        let pre : ℚ := if 0 < rangeStart ∧ j = 0 then 3 else 0
        let adjustedStart : ℚ := currentOffset + ((m.start : ℚ) - (rangeStart : ℚ)) + pre
        [⟨adjustedStart, adjustedStart + ((m.stop : ℚ) - (m.start : ℚ))⟩]
      | Option.none => []
    let nextOffset : ℚ :=
      if 1 < merged.length then
        currentOffset + (combinedLen : ℚ) / (merged.length : ℚ) + 7
      else currentOffset
    here ++ adjustGo content merged combinedLen nextOffset ms

/-- Result record of `extractMultiMatchSnippet`. -/
structure MultiSnippetResult where
  snippet : List Char
  metadata : TruncationMetadata
  matchPositions : List RatRange
deriving DecidableEq, Repr

/-- The `snippetRanges` of `extractMultiMatchSnippet`: one local window
`[max(0, start - size), min(length, end + size))` per match. -/
def snippetRanges (content : List Char) (matchList : List Range) (snippetSize : Int) :
    List Range :=
  matchList.map fun m =>
    (⟨max 0 (m.start - snippetSize), min (content.length : Int) (m.stop + snippetSize)⟩ : Range)

/-- The `mergedRanges` of `extractMultiMatchSnippet`. -/
def multiMerged (content : List Char) (matchList : List Range) (snippetSize : Int) :
    List Range :=
  mergeOverlappingRanges (snippetRanges content matchList snippetSize)

/-- The `combinedSnippet` of `extractMultiMatchSnippet`. -/
def multiCombined (content : List Char) (matchList : List Range) (snippetSize : Int) :
    List Char :=
  buildParts content Option.none true (multiMerged content matchList snippetSize)

/-- The `adjustedMatchPositions` of `extractMultiMatchSnippet`. -/
def multiAdjusted (content : List Char) (matchList : List Range) (snippetSize : Int) :
    List RatRange :=
  adjustGo content (multiMerged content matchList snippetSize)
    (multiCombined content matchList snippetSize).length 0 matchList

/-- `extractMultiMatchSnippet` from the source. -/
def extractMultiMatchSnippet (content : List Char) (matchList : List Range)
    (snippetSize : Int) : MultiSnippetResult :=
  if content.length = 0 ∨ matchList.isEmpty = true then
    ⟨content,
     ⟨false, (content.length : Int), 0, (content.length : Int), TruncationType.none⟩,
     []⟩
  else
    let originalLength : Int := content.length
    if originalLength ≤ snippetSize * 3 then
      ⟨content,
       ⟨false, originalLength, 0, originalLength, TruncationType.none⟩,
       matchList.map Range.toRat⟩
    else
      ⟨multiCombined content matchList snippetSize,
       ⟨true, originalLength,
        ((multiMerged content matchList snippetSize).headD ⟨0, 0⟩).start,
        ((multiMerged content matchList snippetSize).getLastD ⟨0, 0⟩).stop,
        TruncationType.snippet⟩,
       if (multiAdjusted content matchList snippetSize).isEmpty = true then
         matchList.map Range.toRat
       else multiAdjusted content matchList snippetSize⟩

/-- Result record of `applyContentLimit`. -/
structure ContentLimitResult where
  content : List Char
  metadata : TruncationMetadata
deriving DecidableEq, Repr

/-- `applyContentLimit` from the source. -/
def applyContentLimit (content : List Char) (maxLength : Int) : ContentLimitResult :=
  if content.length = 0 ∨ (content.length : Int) ≤ maxLength then
    ⟨content,
     ⟨false, (content.length : Int), 0, (content.length : Int), TruncationType.none⟩⟩
  else
    let cutPoint := findWordBoundary content maxLength Direction.backward
    ⟨jsSubstring content 0 cutPoint ++ ellipsis,
     ⟨true, (content.length : Int), 0, cutPoint, TruncationType.length⟩⟩

/-- The guard in `BaseReader.searchMessages` (src/readers/base.ts) around the
length limiter in full mode: `applyContentLimit` is invoked only when
`config.maxContentLength > 0` and the content exceeds it; otherwise the
message passes through with no truncation metadata. -/
def fullModeProcess (content : List Char) (maxContentLength : Int) :
    List Char × Option TruncationMetadata :=
  if 0 < maxContentLength ∧ maxContentLength < (content.length : Int) then
    let r := applyContentLimit content maxContentLength
    (r.content, Option.some r.metadata)
  else
    (content, Option.none)

/-- The fixed per-item overhead added by `enforceTokenBudget`. -/
def overheadTokens : Nat := 10

/-- The admission cost of one item in `enforceTokenBudget`. -/
def itemCost {T : Type} (contentOf : T → List Char) (m : T) : Nat :=
  estimateTokens (contentOf m) + overheadTokens

/-- Budget result record of `enforceTokenBudget`. -/
structure BudgetResult (T : Type) where
  admitted : List T
  budgetExceeded : Bool
  estimatedTokens : Nat

/-- The admission loop of `enforceTokenBudget`, with the running total
`currentTokens` made explicit. -/
def enforceGo {T : Type} (contentOf : T → List Char) (maxTokens : Nat) :
    Nat → List T → BudgetResult T
  | currentTokens, [] => ⟨[], false, currentTokens⟩
  | currentTokens, m :: rest =>
    if maxTokens < currentTokens + itemCost contentOf m then
      ⟨[], true, currentTokens⟩
    else
      let r := enforceGo contentOf maxTokens (currentTokens + itemCost contentOf m) rest
      ⟨m :: r.admitted, r.budgetExceeded, r.estimatedTokens⟩

/-- `enforceTokenBudget` from the source, generic over the item type `T` with
its text payload projection (`match.message.content` in the source). -/
def enforceTokenBudget {T : Type} (contentOf : T → List Char) (results : List T)
    (maxTokens : Nat) : BudgetResult T :=
  enforceGo contentOf maxTokens 0 results


/-! ### Lemmas about the boundary search loop -/

/-- The search loop either gives up (returning `p`) or returns the scanned
index of a boundary character, at some step `j` within its window. -/
theorem scanBoundary_cases (content : List Char) (p : Nat) (dir : Direction) :
    ∀ d i, scanBoundary content p dir i d = p ∨
      ∃ j, i ≤ j ∧ j < i + d ∧ boundaryAt content (stepIdx dir p j) = true ∧
        scanBoundary content p dir i d = stepIdx dir p j := by
  intro d
  induction d with
  | zero => intro i; exact Or.inl rfl
  | succ d ih =>
    intro i
    by_cases h : boundaryAt content (stepIdx dir p i) = true
    · refine Or.inr ⟨i, le_refl i, by omega, h, ?_⟩
      simp [scanBoundary, h]
    · have hs : scanBoundary content p dir i (d + 1) = scanBoundary content p dir (i + 1) d := by
        simp [scanBoundary, h]
      rcases ih (i + 1) with h' | ⟨j, hj1, hj2, hj3, hj4⟩
      · exact Or.inl (hs.trans h')
      · exact Or.inr ⟨j, by omega, by omega, hj3, hs.trans hj4⟩

/-- If no step of the window hits a boundary character, the loop returns `p`. -/
theorem scanBoundary_of_none (content : List Char) (p : Nat) (dir : Direction) :
    ∀ d i, (∀ j, j < d → boundaryAt content (stepIdx dir p (i + j)) = false) →
      scanBoundary content p dir i d = p := by
  intro d
  induction d with
  | zero => intro i _; rfl
  | succ d ih =>
    intro i h
    have h0 : boundaryAt content (stepIdx dir p i) = false := by
      have := h 0 (by omega)
      simpa using this
    have : scanBoundary content p dir i (d + 1) = scanBoundary content p dir (i + 1) d := by
      simp [scanBoundary, h0]
    refine this.trans (ih (i + 1) ?_)
    intro j hj
    have := h (j + 1) (by omega)
    have e : i + 1 + j = i + (j + 1) := by omega
    rw [e]
    exact this

/-- The loop returns the index of the first boundary step in its window. -/
theorem scanBoundary_of_first (content : List Char) (p : Nat) (dir : Direction) :
    ∀ d i j, j < d → boundaryAt content (stepIdx dir p (i + j)) = true →
      (∀ j', j' < j → boundaryAt content (stepIdx dir p (i + j')) = false) →
      scanBoundary content p dir i d = stepIdx dir p (i + j) := by
  intro d
  induction d with
  | zero => intro i j hj; omega
  | succ d ih =>
    intro i j hj hb hmin
    by_cases h0 : boundaryAt content (stepIdx dir p i) = true
    · have hj0 : j = 0 := by
        by_contra hne
        have := hmin 0 (by omega)
        simp at this
        rw [this] at h0
        exact Bool.false_ne_true h0
      subst hj0
      simp [scanBoundary, h0]
    · have hs : scanBoundary content p dir i (d + 1) = scanBoundary content p dir (i + 1) d := by
        simp [scanBoundary, h0]
      have hjne : j ≠ 0 := by
        intro he; subst he; simp at hb; rw [hb] at h0; exact h0 rfl
      have hb' : boundaryAt content (stepIdx dir p ((i + 1) + (j - 1))) = true := by
        have e : (i + 1) + (j - 1) = i + j := by omega
        rw [e]; exact hb
      have hmin' : ∀ j', j' < j - 1 → boundaryAt content (stepIdx dir p ((i + 1) + j')) = false := by
        intro j' hj'
        have e : (i + 1) + j' = i + (j' + 1) := by omega
        rw [e]
        exact hmin (j' + 1) (by omega)
      have := ih (i + 1) (j - 1) (by omega) hb' hmin'
      have e : (i + 1) + (j - 1) = i + j := by omega
      rw [e] at this
      exact hs.trans this

/-- A boundary hit is always at an in-range index: out-of-range access reads
the non-boundary default. -/
theorem boundaryAt_lt_length (content : List Char) (j : Nat)
    (h : boundaryAt content j = true) : j < content.length := by
  by_contra hge
  have h0 : content.getD j 'a' = 'a' := by
    unfold List.getD
    rw [List.get?_eq_none.2 (by omega)]
    rfl
  unfold boundaryAt at h
  rw [h0] at h
  exact absurd h (by decide)

/-! ### Bounds for findWordBoundary -/

/-- The result of the boundary locator is never negative. -/
theorem findWordBoundary_nonneg (content : List Char) (pos : Int) (dir : Direction) :
    0 ≤ findWordBoundary content pos dir := by
  unfold findWordBoundary
  split
  · exact le_refl 0
  · split
    · exact Int.natCast_nonneg _
    · exact Int.natCast_nonneg _

/-- The result of the boundary locator never exceeds the document length. -/
theorem findWordBoundary_le_length (content : List Char) (pos : Int) (dir : Direction) :
    findWordBoundary content pos dir ≤ (content.length : Int) := by
  unfold findWordBoundary
  split
  · exact Int.natCast_nonneg _
  · split
    · exact le_refl _
    · rename_i h1 h2
      dsimp only
      have hp : pos.toNat < content.length := by omega
      rcases scanBoundary_cases content pos.toNat dir (searchDistance content pos.toNat dir) 0 with
        h | ⟨j, _, _, hb, he⟩
      · rw [h]; exact_mod_cast le_of_lt hp
      · rw [he]
        have := boundaryAt_lt_length content (stepIdx dir pos.toNat j) hb
        exact_mod_cast le_of_lt this

/-- Backward search never moves the cut to the right of the position. -/
theorem findWordBoundary_backward_le (content : List Char) (pos : Int) (h : 0 ≤ pos) :
    findWordBoundary content pos Direction.backward ≤ pos := by
  unfold findWordBoundary
  split
  · omega
  · split
    · omega
    · rename_i h1 h2
      dsimp only
      rcases scanBoundary_cases content pos.toNat Direction.backward
          (searchDistance content pos.toNat Direction.backward) 0 with
        he | ⟨j, _, _, _, he⟩
      · rw [he]; omega
      · rw [he]
        have : stepIdx Direction.backward pos.toNat j ≤ pos.toNat := by
          rw [stepIdx_backward]; omega
        omega

/-- Backward search moves the cut at most `W - 1 = 19` units left. -/
theorem findWordBoundary_backward_ge (content : List Char) (pos : Int)
    (h : pos ≤ (content.length : Int)) :
    pos - 19 ≤ findWordBoundary content pos Direction.backward := by
  unfold findWordBoundary
  split
  · omega
  · split
    · omega
    · rename_i h1 h2
      dsimp only
      rcases scanBoundary_cases content pos.toNat Direction.backward
          (searchDistance content pos.toNat Direction.backward) 0 with
        he | ⟨j, _, hj, _, he⟩
      · rw [he]; omega
      · rw [he]
        have hd : searchDistance content pos.toNat Direction.backward ≤ 20 := by
          unfold searchDistance MAX_WORD_BOUNDARY_SEARCH; omega
        rw [stepIdx_backward]
        have hjle : j ≤ 19 := by
          unfold searchDistance MAX_WORD_BOUNDARY_SEARCH at hj hd
          omega
        omega

/-- Forward search never moves the cut to the left of the position. -/
theorem findWordBoundary_forward_ge (content : List Char) (pos : Int)
    (h : pos ≤ (content.length : Int)) :
    pos ≤ findWordBoundary content pos Direction.forward := by
  unfold findWordBoundary
  split
  · omega
  · split
    · omega
    · rename_i h1 h2
      dsimp only
      rcases scanBoundary_cases content pos.toNat Direction.forward
          (searchDistance content pos.toNat Direction.forward) 0 with
        he | ⟨j, _, _, _, he⟩
      · rw [he]; omega
      · rw [he]
        have : pos.toNat ≤ stepIdx Direction.forward pos.toNat j := by
          rw [stepIdx_forward]; omega
        omega

/-- Forward search moves the cut at most `W - 1 = 19` units right. -/
theorem findWordBoundary_forward_le (content : List Char) (pos : Int) (h : 0 ≤ pos) :
    findWordBoundary content pos Direction.forward ≤ pos + 19 := by
  unfold findWordBoundary
  split
  · omega
  · split
    · omega
    · rename_i h1 h2
      dsimp only
      rcases scanBoundary_cases content pos.toNat Direction.forward
          (searchDistance content pos.toNat Direction.forward) 0 with
        he | ⟨j, _, hj, _, he⟩
      · rw [he]; omega
      · rw [he]
        have hd : searchDistance content pos.toNat Direction.forward ≤ 20 := by
          unfold searchDistance MAX_WORD_BOUNDARY_SEARCH; omega
        rw [stepIdx_forward]
        have hjle : j ≤ 19 := by
          unfold searchDistance MAX_WORD_BOUNDARY_SEARCH at hj hd
          omega
        omega

/-- C7: the Boundary Locator always returns a value in `[0, length(document)]`;
it returns `0` when `position ≤ 0`, `length` when `position ≥ length`, the
first boundary-class position found within the `W = 20` search window
otherwise, and the original position unchanged when no boundary character
lies within the window. -/
theorem findWordBoundary_contract (content : List Char) (position : Int) (dir : Direction) :
    (0 ≤ findWordBoundary content position dir ∧
      findWordBoundary content position dir ≤ (content.length : Int)) ∧
    (position ≤ 0 → findWordBoundary content position dir = 0) ∧
    ((content.length : Int) ≤ position →
      findWordBoundary content position dir = (content.length : Int)) ∧
    (0 < position → position < (content.length : Int) →
      (∀ j, j < searchDistance content position.toNat dir →
          boundaryAt content (stepIdx dir position.toNat j) = false) →
      findWordBoundary content position dir = position) ∧
    (0 < position → position < (content.length : Int) →
      ∀ j, j < searchDistance content position.toNat dir →
        boundaryAt content (stepIdx dir position.toNat j) = true →
        (∀ j', j' < j → boundaryAt content (stepIdx dir position.toNat j') = false) →
      findWordBoundary content position dir = (stepIdx dir position.toNat j : Int)) := by
  refine ⟨⟨findWordBoundary_nonneg content position dir,
           findWordBoundary_le_length content position dir⟩, ?_, ?_, ?_, ?_⟩
  · intro h
    unfold findWordBoundary
    rw [if_pos h]
  · intro h
    unfold findWordBoundary
    split
    · omega
    · rfl
  · intro h0 h1 hnone
    unfold findWordBoundary
    rw [if_neg (by omega), if_neg (by omega)]
    dsimp only
    have := scanBoundary_of_none content position.toNat dir
      (searchDistance content position.toNat dir) 0 (by simpa using hnone)
    rw [this]
    omega
  · intro h0 h1 j hj hb hmin
    unfold findWordBoundary
    rw [if_neg (by omega), if_neg (by omega)]
    dsimp only
    have := scanBoundary_of_first content position.toNat dir
      (searchDistance content position.toNat dir) 0 j hj (by simpa using hb)
      (by simpa using hmin)
    rw [this]
    simp

/-- Witness for C7 at concrete inputs: a backward search that finds the space
at index 2, a forward search that finds no boundary and keeps the position,
a negative position clamped to 0, and an overlarge position clamped to the
length. -/
theorem findWordBoundary_contract_witness :
    findWordBoundary ("ab cd").toList 4 Direction.backward = 2 ∧
    findWordBoundary ("abcde").toList 3 Direction.forward = 3 ∧
    findWordBoundary ("abc").toList (-5) Direction.backward = 0 ∧
    findWordBoundary ("abc").toList 7 Direction.forward = 3 := by
  refine ⟨?_, ?_, ?_, ?_⟩
  · exact ((findWordBoundary_contract ("ab cd").toList 4 Direction.backward).2.2.2.2
      (by decide) (by decide) 2 (by decide) (by decide) (by decide)).trans (by decide)
  · exact (findWordBoundary_contract ("abcde").toList 3 Direction.forward).2.2.2.1
      (by decide) (by decide) (by decide)
  · exact (findWordBoundary_contract ("abc").toList (-5) Direction.backward).2.1 (by decide)
  · exact ((findWordBoundary_contract ("abc").toList 7 Direction.forward).2.2.1
      (by decide)).trans (by decide)

/-! ### Lemmas about jsSubstring -/

/-- The length of a substring is at most the distance between its raw bounds. -/
theorem jsSubstring_length_le (c : List Char) (a b : Int) :
    ((jsSubstring c a b).length : Int) ≤ max a b - min a b := by
  unfold jsSubstring
  dsimp only
  rw [List.length_drop, List.length_take]
  omega

/-- With in-order, in-bounds arguments, `jsSubstring` is drop-then-take. -/
theorem jsSubstring_eq (c : List Char) (a b : Int) (h0 : 0 ≤ a) (h1 : a ≤ b)
    (h2 : b ≤ (c.length : Int)) :
    jsSubstring c a b = (c.take b.toNat).drop a.toNat := by
  unfold jsSubstring
  dsimp only
  have e1 : (min (max a 0) (c.length : Int)).toNat = a.toNat := by omega
  have e2 : (min (max b 0) (c.length : Int)).toNat = b.toNat := by omega
  rw [e1, e2]
  have e3 : max a.toNat b.toNat = b.toNat := by omega
  have e4 : min a.toNat b.toNat = a.toNat := by omega
  simp only [e1, e2, e3, e4]

/-- A slice of a slice decomposition: the window `[s, e)` splits into the
parts before, inside, and after the inner window `[a, b)`. -/
theorem slice_decomp (c : List Char) (s a b e : Nat) (h1 : s ≤ a) (h2 : a ≤ b)
    (h3 : b ≤ e) (h4 : e ≤ c.length) :
    (c.take e).drop s = ((c.take a).drop s) ++ ((c.take b).drop a) ++ ((c.take e).drop b) := by
  have t1 : List.take b (List.take e c) = List.take b c := by
    rw [List.take_take]
    congr 1
    omega
  have split1 : List.take e c = List.take b c ++ List.drop b (List.take e c) := by
    conv_lhs => rw [← List.take_append_drop b (List.take e c)]
    rw [t1]
  have t2 : List.take a (List.take b c) = List.take a c := by
    rw [List.take_take]
    congr 1
    omega
  have split2 : List.take b c = List.take a c ++ List.drop a (List.take b c) := by
    conv_lhs => rw [← List.take_append_drop a (List.take b c)]
    rw [t2]
  conv_lhs => rw [split1]
  rw [List.drop_append_of_le_length (by simp [List.length_take]; omega)]
  conv_lhs => rw [split2]
  rw [List.drop_append_of_le_length (by simp [List.length_take]; omega)]

/-- C2: for every in-bounds match and every radius `≥ 0`, the snippet returned
by `extractSnippet` contains the match text
`content.substring(matchStart, matchEnd)` verbatim as a contiguous substring:
in the truncating branch the snapped start is `≤ matchStart` and the snapped
end is `≥ matchEnd`. -/
theorem extractSnippet_contains (content : List Char) (matchStart matchEnd r : Int)
    (hr : 0 ≤ r) (h0 : 0 ≤ matchStart) (h1 : matchStart ≤ matchEnd)
    (h2 : matchEnd ≤ (content.length : Int)) :
    ∃ pre post, (extractSnippet content matchStart matchEnd r).snippet =
      pre ++ jsSubstring content matchStart matchEnd ++ post := by
  unfold extractSnippet
  split
  · rename_i h
    refine ⟨[], [], ?_⟩
    have hc : content = [] := List.length_eq_zero.mp h
    subst hc
    simp [jsSubstring]
  · dsimp only
    split
    · dsimp only
      rw [jsSubstring_eq content matchStart matchEnd h0 h1 h2]
      refine ⟨(content.take matchStart.toNat).drop 0, (content.take content.length).drop matchEnd.toNat, ?_⟩
      have := slice_decomp content 0 matchStart.toNat matchEnd.toNat content.length
        (by omega) (by omega) (by omega) (by omega)
      calc content = (content.take content.length).drop 0 := by simp
        _ = _ := this
    · dsimp only
      have hs0 : 0 ≤ findWordBoundary content (max 0 (matchStart - r)) Direction.backward :=
        findWordBoundary_nonneg _ _ _
      have hsm : findWordBoundary content (max 0 (matchStart - r)) Direction.backward ≤ matchStart := by
        have := findWordBoundary_backward_le content (max 0 (matchStart - r)) (by omega)
        omega
      have hme : matchEnd ≤ findWordBoundary content (min (content.length : Int) (matchEnd + r)) Direction.forward := by
        have := findWordBoundary_forward_ge content (min (content.length : Int) (matchEnd + r)) (by omega)
        omega
      have hel : findWordBoundary content (min (content.length : Int) (matchEnd + r)) Direction.forward ≤ (content.length : Int) :=
        findWordBoundary_le_length _ _ _
      rw [jsSubstring_eq content _ _ hs0 (by omega) hel]
      rw [jsSubstring_eq content matchStart matchEnd h0 h1 h2]
      refine ⟨(content.take matchStart.toNat).drop
          (findWordBoundary content (max 0 (matchStart - r)) Direction.backward).toNat,
        (content.take (findWordBoundary content (min (content.length : Int) (matchEnd + r)) Direction.forward).toNat).drop
          matchEnd.toNat, ?_⟩
      exact slice_decomp content _ _ _ _ (by omega) (by omega) (by omega) (by omega)

/-- Witness for C2: a 30-character document with an in-bounds match and a
small radius, truncated but still containing the match text. -/
theorem extractSnippet_contains_witness :
    ∃ pre post, (extractSnippet ("aaaa bbbb cccc dddd eeee ffff").toList 12 14 3).snippet =
      pre ++ jsSubstring ("aaaa bbbb cccc dddd eeee ffff").toList 12 14 ++ post :=
  extractSnippet_contains ("aaaa bbbb cccc dddd eeee ffff").toList 12 14 3
    (by decide) (by decide) (by decide) (by decide)

/-- C10: boundary snapping moves each cut at most `W - 1 = 19` units outward,
so for every in-bounds match and radius `≥ 0` the snippet returned by
`extractSnippet` has length at most `(matchEnd - matchStart) + 2*radius + 2*19`,
independent of the document length. -/
theorem extractSnippet_length_bound (content : List Char) (matchStart matchEnd r : Int)
    (hr : 0 ≤ r) (h0 : 0 ≤ matchStart) (h1 : matchStart ≤ matchEnd)
    (h2 : matchEnd ≤ (content.length : Int)) :
    ((extractSnippet content matchStart matchEnd r).snippet.length : Int) ≤
      (matchEnd - matchStart) + 2 * r + 2 * 19 := by
  unfold extractSnippet
  split
  · simp
    omega
  · dsimp only
    split
    · rename_i hsmall
      dsimp only
      omega
    · dsimp only
      have hb1 := findWordBoundary_backward_le content (max 0 (matchStart - r)) (by omega)
      have hb2 := findWordBoundary_backward_ge content (max 0 (matchStart - r)) (by omega)
      have hf1 := findWordBoundary_forward_ge content (min (content.length : Int) (matchEnd + r)) (by omega)
      have hf2 := findWordBoundary_forward_le content (min (content.length : Int) (matchEnd + r)) (by omega)
      have hlen := jsSubstring_length_le content
        (findWordBoundary content (max 0 (matchStart - r)) Direction.backward)
        (findWordBoundary content (min (content.length : Int) (matchEnd + r)) Direction.forward)
      omega

/-- Witness for C10 at a concrete long document. -/
theorem extractSnippet_length_bound_witness :
    ((extractSnippet ("aaaa bbbb cccc dddd eeee ffff").toList 12 14 3).snippet.length : Int) ≤
      (14 - 12) + 2 * 3 + 2 * 19 :=
  extractSnippet_length_bound ("aaaa bbbb cccc dddd eeee ffff").toList 12 14 3
    (by decide) (by decide) (by decide) (by decide)

/-! ### Lemmas about range consolidation -/

/-- The merging loop emits at most one more range than remain unprocessed. -/
theorem mergeGo_length : ∀ (l : List Range) (cur : Range),
    (mergeGo cur l).length ≤ 1 + l.length := by
  intro l
  induction l with
  | nil => intro cur; simp [mergeGo]
  | cons next rest ih =>
    intro cur
    unfold mergeGo
    split
    · have := ih ⟨cur.start, max cur.stop next.stop⟩
      simpa using by omega
    · have := ih next
      simp only [List.length_cons]
      omega

/-- The merging loop's first output keeps the accumulator's start and only
ever grows its end. -/
theorem mergeGo_head : ∀ (l : List Range) (cur : Range),
    ∃ e tl, mergeGo cur l = (⟨cur.start, e⟩ : Range) :: tl ∧ cur.stop ≤ e := by
  intro l
  induction l with
  | nil => intro cur; exact ⟨cur.stop, [], rfl, le_refl _⟩
  | cons next rest ih =>
    intro cur
    unfold mergeGo
    split
    · obtain ⟨e, tl, he, hle⟩ := ih ⟨cur.start, max cur.stop next.stop⟩
      exact ⟨e, tl, he, le_trans (le_max_left _ _) hle⟩
    · exact ⟨cur.stop, mergeGo next rest, rfl, le_refl _⟩

/-- On a sorted input the merging loop produces ranges that are sorted by
start and pairwise separated by more than the gap tolerance. -/
theorem mergeGo_chain : ∀ (l : List Range) (cur : Range),
    List.Sorted rle (cur :: l) →
    List.Chain' (fun a b => a.start ≤ b.start ∧ a.stop + 10 < b.start) (mergeGo cur l) := by
  intro l
  induction l with
  | nil => intro cur _; simp [mergeGo]
  | cons next rest ih =>
    intro cur hs
    have hcn : rle cur next := (List.pairwise_cons.mp hs).1 next (by simp)
    have hrest : List.Sorted rle (next :: rest) := (List.pairwise_cons.mp hs).2
    have hcn' : cur.start ≤ next.start := hcn
    unfold mergeGo
    split
    · rename_i hmerge
      apply ih ⟨cur.start, max cur.stop next.stop⟩
      rw [List.sorted_cons]
      refine ⟨?_, (List.pairwise_cons.mp hrest).2⟩
      intro b hb
      exact le_trans hcn ((List.pairwise_cons.mp hrest).1 b hb)
    · rename_i hsep
      obtain ⟨e, tl, he, hle⟩ := mergeGo_head rest next
      rw [he]
      refine List.Chain'.cons ⟨?_, ?_⟩ ?_
      · show cur.start ≤ next.start
        exact hcn'
      · show cur.stop + 10 < next.start
        omega
      · rw [← he]
        exact ih next hrest

/-- On a sorted input every pending range is covered by some output range of
the merging loop. -/
theorem mergeGo_cover : ∀ (l : List Range) (cur : Range),
    List.Sorted rle (cur :: l) →
    ∀ r, r ∈ cur :: l →
      ∃ r', r' ∈ mergeGo cur l ∧ r'.start ≤ r.start ∧ r.stop ≤ r'.stop := by
  intro l
  induction l with
  | nil =>
    intro cur _ r hr
    rw [List.mem_cons] at hr
    rcases hr with hr | hr
    · subst hr
      exact ⟨r, by simp [mergeGo], le_refl _, le_refl _⟩
    · simp at hr
  | cons next rest ih =>
    intro cur hs r hr
    have hcn : rle cur next := (List.pairwise_cons.mp hs).1 next (by simp)
    have hrest : List.Sorted rle (next :: rest) := (List.pairwise_cons.mp hs).2
    have hcn' : cur.start ≤ next.start := hcn
    unfold mergeGo
    split
    · rename_i hmerge
      have hs' : List.Sorted rle ((⟨cur.start, max cur.stop next.stop⟩ : Range) :: rest) := by
        rw [List.sorted_cons]
        refine ⟨?_, (List.pairwise_cons.mp hrest).2⟩
        intro b hb
        exact le_trans hcn ((List.pairwise_cons.mp hrest).1 b hb)
      have hcover := ih ⟨cur.start, max cur.stop next.stop⟩ hs'
      rw [List.mem_cons] at hr
      rcases hr with hr | hr
      · obtain ⟨r', hm, h1, h2⟩ := hcover ⟨cur.start, max cur.stop next.stop⟩ (by simp)
        subst hr
        refine ⟨r', hm, ?_, ?_⟩
        · exact h1
        · exact le_trans (le_max_left _ _) h2
      · rw [List.mem_cons] at hr
        rcases hr with hr | hr
        · obtain ⟨r', hm, h1, h2⟩ := hcover ⟨cur.start, max cur.stop next.stop⟩ (by simp)
          subst hr
          refine ⟨r', hm, ?_, ?_⟩
          · exact le_trans h1 hcn'
          · exact le_trans (le_max_right _ _) h2
        · obtain ⟨r', hm, h1, h2⟩ := hcover r (by simp [hr])
          exact ⟨r', hm, h1, h2⟩
    · rename_i hsep
      rw [List.mem_cons] at hr
      rcases hr with hr | hr
      · subst hr
        exact ⟨r, by simp, le_refl _, le_refl _⟩
      · obtain ⟨r', hm, h1, h2⟩ := ih next hrest r hr
        exact ⟨r', by simp [hm], h1, h2⟩

/-- C3: the Range Consolidator never increases the number of ranges, returns
ranges sorted by start and pairwise separated by more than `G = 10`, covers
every input range by some output range, and merges two consecutive-by-start
ranges into one span exactly when the next range starts within `G = 10` units
of the current accumulated end. -/
theorem mergeOverlappingRanges_contract (ranges : List Range) :
    ((mergeOverlappingRanges ranges).length ≤ ranges.length) ∧
    List.Chain' (fun a b => a.start ≤ b.start ∧ a.stop + 10 < b.start)
      (mergeOverlappingRanges ranges) ∧
    (∀ r, r ∈ ranges →
      ∃ r', r' ∈ mergeOverlappingRanges ranges ∧ r'.start ≤ r.start ∧ r.stop ≤ r'.stop) ∧
    (∀ r1 r2 : Range, r1.start ≤ r2.start →
      mergeOverlappingRanges [r1, r2] =
        if r2.start ≤ r1.stop + 10 then [(⟨r1.start, max r1.stop r2.stop⟩ : Range)]
        else [r1, r2]) := by
  have hpair : ∀ r1 r2 : Range, r1.start ≤ r2.start →
      mergeOverlappingRanges [r1, r2] =
        if r2.start ≤ r1.stop + 10 then [(⟨r1.start, max r1.stop r2.stop⟩ : Range)]
        else [r1, r2] := by
    intro r1 r2 h
    have hs : sortRanges [r1, r2] = [r1, r2] := by
      unfold sortRanges
      simp only [List.insertionSort, List.orderedInsert]
      rw [if_pos (show rle r1 r2 from h)]
    have hm : mergeOverlappingRanges [r1, r2] = mergeGo r1 [r2] := by
      unfold mergeOverlappingRanges
      rw [if_neg (by simp)]
      rw [hs]
    rw [hm]
    by_cases hc : r2.start ≤ r1.stop + 10
    · rw [if_pos hc]
      simp [mergeGo, hc]
    · rw [if_neg hc]
      simp [mergeGo, hc]
  refine ⟨?_, ?_, ?_, hpair⟩
  all_goals
    unfold mergeOverlappingRanges
    split
  · exact le_refl _
  · rename_i hlen
    have hperm := List.perm_insertionSort rle ranges
    have hlen2 : (sortRanges ranges).length = ranges.length := hperm.length_eq
    split
    · simp
    · rename_i hd tl heq
      have := mergeGo_length tl hd
      have : (mergeGo hd tl).length ≤ 1 + tl.length := this
      have hl : (sortRanges ranges).length = 1 + tl.length := by
        rw [heq]
        simp [Nat.add_comm]
      omega
  · rename_i hlen
    rcases ranges with _ | ⟨a, _ | ⟨b, l⟩⟩
    · exact List.chain'_nil
    · exact List.chain'_singleton _
    · simp at hlen
  · rename_i hlen
    split
    · exact List.chain'_nil
    · rename_i hd tl heq
      apply mergeGo_chain
      have := List.sorted_insertionSort rle ranges
      rw [show List.insertionSort rle ranges = sortRanges ranges from rfl, heq] at this
      exact this
  · rename_i hlen
    intro r hr
    exact ⟨r, hr, le_refl _, le_refl _⟩
  · rename_i hlen
    intro r hr
    have hperm := List.perm_insertionSort rle ranges
    have hmem : r ∈ sortRanges ranges := by
      unfold sortRanges
      exact hperm.mem_iff.mpr hr
    split
    · rename_i heq
      rw [heq] at hmem
      simp at hmem
    · rename_i hd tl heq
      rw [heq] at hmem
      have hsorted : List.Sorted rle (hd :: tl) := by
        have := List.sorted_insertionSort rle ranges
        rw [show List.insertionSort rle ranges = sortRanges ranges from rfl, heq] at this
        exact this
      exact mergeGo_cover tl hd hsorted r hmem

/-- Witness for C3: the spec's own consolidation examples. -/
theorem mergeOverlappingRanges_contract_witness :
    (∃ r', r' ∈ mergeOverlappingRanges [(⟨0, 10⟩ : Range), ⟨8, 15⟩, ⟨18, 30⟩] ∧
      r'.start ≤ 8 ∧ 15 ≤ r'.stop) ∧
    mergeOverlappingRanges [(⟨0, 10⟩ : Range), ⟨8, 15⟩] = [(⟨0, 15⟩ : Range)] := by
  constructor
  · exact (mergeOverlappingRanges_contract [⟨0, 10⟩, ⟨8, 15⟩, ⟨18, 30⟩]).2.2.1
      ⟨8, 15⟩ (by decide)
  · exact ((mergeOverlappingRanges_contract []).2.2.2 (⟨0, 10⟩ : Range) ⟨8, 15⟩
      (by decide)).trans (by decide)

/-! ### Lemmas about the token budget loop -/

/-- The running total only grows as the admission loop proceeds. -/
theorem enforceGo_tokens_ge {T : Type} (contentOf : T → List Char) (maxTokens : Nat) :
    ∀ (l : List T) (acc : Nat),
      acc ≤ (enforceGo contentOf maxTokens acc l).estimatedTokens := by
  intro l
  induction l with
  | nil => intro acc; simp [enforceGo]
  | cons x xs ih =>
    intro acc
    unfold enforceGo
    split
    · simp
    · dsimp only
      exact le_trans (Nat.le_add_right _ _) (ih (acc + itemCost contentOf x))

/-- Full characterisation of the admission loop relative to the running
total `acc`: the admitted items are a prefix of the input; the final total is
`acc` plus the admitted items' cumulative cost; the total never exceeds the
budget when `acc` does not; the exceeded flag is set exactly when some item
was rejected; and the first rejected item's cost would have pushed the total
over the budget. -/
theorem enforceGo_spec {T : Type} (contentOf : T → List Char) (maxTokens : Nat) :
    ∀ (l : List T) (acc : Nat),
      (∃ t, (enforceGo contentOf maxTokens acc l).admitted ++ t = l) ∧
      ((enforceGo contentOf maxTokens acc l).estimatedTokens =
        acc + ((enforceGo contentOf maxTokens acc l).admitted.map (itemCost contentOf)).sum) ∧
      (acc ≤ maxTokens → (enforceGo contentOf maxTokens acc l).estimatedTokens ≤ maxTokens) ∧
      ((enforceGo contentOf maxTokens acc l).budgetExceeded = true ↔
        (enforceGo contentOf maxTokens acc l).admitted.length < l.length) ∧
      (∀ t rest, l = (enforceGo contentOf maxTokens acc l).admitted ++ t :: rest →
        maxTokens < (enforceGo contentOf maxTokens acc l).estimatedTokens + itemCost contentOf t) := by
  intro l
  induction l with
  | nil =>
    intro acc
    refine ⟨⟨[], rfl⟩, by simp [enforceGo], fun h => h, by simp [enforceGo], ?_⟩
    intro t rest heq
    simp [enforceGo] at heq
  | cons x xs ih =>
    intro acc
    unfold enforceGo
    split
    · rename_i hover
      refine ⟨⟨x :: xs, rfl⟩, by simp, fun h => h, by simp, ?_⟩
      intro t rest heq
      simp only [List.nil_append] at heq
      rw [List.cons.injEq] at heq
      rw [← heq.1]
      exact hover
    · rename_i hok
      dsimp only
      obtain ⟨⟨t0, hpre⟩, htok, hbound, hexc, hstop⟩ := ih (acc + itemCost contentOf x)
      refine ⟨⟨t0, ?_⟩, ?_, ?_, ?_, ?_⟩
      · rw [List.cons_append, hpre]
      · rw [htok]
        simp [Nat.add_assoc]
      · intro hacc
        exact hbound (by omega)
      · rw [hexc]
        simp
      · intro t rest heq
        rw [List.cons_append, List.cons.injEq] at heq
        exact hstop t rest heq.2

/-- C4: the Batch Token-Budget Enforcer admits a prefix of its input in order;
its `estimatedTokens` is exactly the cumulative cost
(`ceil(length/4) + 10` per item) of the admitted items, and never exceeds the
budget; `budgetExceeded` is set exactly when some item was rejected; and the
first rejected item is one whose cost would push the running total over the
budget. -/
theorem enforceTokenBudget_contract {T : Type} (contentOf : T → List Char)
    (results : List T) (maxTokens : Nat) :
    (∃ t, (enforceTokenBudget contentOf results maxTokens).admitted ++ t = results) ∧
    ((enforceTokenBudget contentOf results maxTokens).estimatedTokens =
      ((enforceTokenBudget contentOf results maxTokens).admitted.map (itemCost contentOf)).sum) ∧
    ((enforceTokenBudget contentOf results maxTokens).estimatedTokens ≤ maxTokens) ∧
    ((enforceTokenBudget contentOf results maxTokens).budgetExceeded = true ↔
      (enforceTokenBudget contentOf results maxTokens).admitted.length < results.length) ∧
    (∀ t rest, results = (enforceTokenBudget contentOf results maxTokens).admitted ++ t :: rest →
      maxTokens < (enforceTokenBudget contentOf results maxTokens).estimatedTokens +
        itemCost contentOf t) := by
  obtain ⟨h1, h2, h3, h4, h5⟩ := enforceGo_spec contentOf maxTokens results 0
  exact ⟨h1, by simpa using h2, h3 (Nat.zero_le _), h4, h5⟩

/-- Witness for C4: two items of cost 12 each against a budget of 15 — the
first is admitted, the second rejected. -/
theorem enforceTokenBudget_contract_witness :
    ((enforceTokenBudget (fun t : List Char => t)
        [("aaaaaaaa").toList, ("bbbbbbbb").toList] 15).budgetExceeded = true) ∧
    (15 < (enforceTokenBudget (fun t : List Char => t)
        [("aaaaaaaa").toList, ("bbbbbbbb").toList] 15).estimatedTokens +
      itemCost (fun t : List Char => t) ("bbbbbbbb").toList) := by
  constructor
  · exact ((enforceTokenBudget_contract (fun t : List Char => t)
      [("aaaaaaaa").toList, ("bbbbbbbb").toList] 15).2.2.2.1).mpr (by decide)
  · exact (enforceTokenBudget_contract (fun t : List Char => t)
      [("aaaaaaaa").toList, ("bbbbbbbb").toList] 15).2.2.2.2
      ("bbbbbbbb").toList [] (by decide)

/-- The admission loop's final total is monotone in the input list: removing
items from the tail never increases it. -/
theorem enforceGo_take_le {T : Type} (contentOf : T → List Char) (maxTokens : Nat) :
    ∀ (l : List T) (k acc : Nat),
      (enforceGo contentOf maxTokens acc (l.take k)).estimatedTokens ≤
        (enforceGo contentOf maxTokens acc l).estimatedTokens := by
  intro l
  induction l with
  | nil => intro k acc; simp [List.take_nil]
  | cons x xs ih =>
    intro k acc
    cases k with
    | zero =>
      simp only [List.take_zero]
      exact le_trans (by simp [enforceGo]) (enforceGo_tokens_ge contentOf maxTokens (x :: xs) acc)
    | succ k =>
      rw [List.take_succ_cons]
      by_cases h : maxTokens < acc + itemCost contentOf x
      · simp [enforceGo, h]
      · simp only [enforceGo, if_neg h]
        exact ih k (acc + itemCost contentOf x)

/-- C8: `estimatedTokens` is monotone in the input — for every list of
results, budget, and prefix obtained by dropping a tail, the budget enforcer
on the prefix reports at most the `estimatedTokens` it reports on the full
list. -/
theorem enforceTokenBudget_monotone {T : Type} (contentOf : T → List Char)
    (results : List T) (maxTokens : Nat) (k : Nat) :
    (enforceTokenBudget contentOf (results.take k) maxTokens).estimatedTokens ≤
      (enforceTokenBudget contentOf results maxTokens).estimatedTokens :=
  enforceGo_take_le contentOf maxTokens results k 0

/-- C6: every `TruncationMetadata` produced by `extractSnippet`,
`extractMultiMatchSnippet`, or `applyContentLimit` satisfies the invariant:
if `content_truncated = false` then `snippet_start = 0` and
`snippet_end = original_length`, and `original_length` is the input
document's length. -/
theorem truncationMetadata_invariant (content : List Char)
    (matchStart matchEnd snippetSize maxLength : Int) (matchList : List Range) :
    ((extractSnippet content matchStart matchEnd snippetSize).metadata.content_truncated = false →
      (extractSnippet content matchStart matchEnd snippetSize).metadata.snippet_start = 0 ∧
      (extractSnippet content matchStart matchEnd snippetSize).metadata.snippet_end =
        (content.length : Int) ∧
      (extractSnippet content matchStart matchEnd snippetSize).metadata.original_length =
        (content.length : Int)) ∧
    ((extractMultiMatchSnippet content matchList snippetSize).metadata.content_truncated = false →
      (extractMultiMatchSnippet content matchList snippetSize).metadata.snippet_start = 0 ∧
      (extractMultiMatchSnippet content matchList snippetSize).metadata.snippet_end =
        (content.length : Int) ∧
      (extractMultiMatchSnippet content matchList snippetSize).metadata.original_length =
        (content.length : Int)) ∧
    ((applyContentLimit content maxLength).metadata.content_truncated = false →
      (applyContentLimit content maxLength).metadata.snippet_start = 0 ∧
      (applyContentLimit content maxLength).metadata.snippet_end = (content.length : Int) ∧
      (applyContentLimit content maxLength).metadata.original_length = (content.length : Int)) := by
  refine ⟨?_, ?_, ?_⟩
  · unfold extractSnippet
    split
    · rename_i h
      intro _
      refine ⟨rfl, ?_, ?_⟩ <;> exact (by omega : (0 : Int) = (content.length : Int))
    · dsimp only
      split
      · intro _
        exact ⟨rfl, rfl, rfl⟩
      · intro hfalse
        simp at hfalse
  · unfold extractMultiMatchSnippet
    split
    · intro _
      exact ⟨rfl, rfl, rfl⟩
    · dsimp only
      split
      · intro _
        exact ⟨rfl, rfl, rfl⟩
      · intro hfalse
        simp at hfalse
  · unfold applyContentLimit
    split
    · intro _
      exact ⟨rfl, rfl, rfl⟩
    · intro hfalse
      simp at hfalse

/-- Witness for C6: untruncated results of all three operations on a short
document report the full-document span. -/
theorem truncationMetadata_invariant_witness :
    (extractSnippet ("abc").toList 0 1 5).metadata.snippet_start = 0 ∧
    (extractSnippet ("abc").toList 0 1 5).metadata.snippet_end = 3 ∧
    (applyContentLimit ("abc").toList 10).metadata.snippet_end = 3 ∧
    (extractMultiMatchSnippet ("abc").toList [⟨0, 1⟩] 5).metadata.snippet_start = 0 := by
  obtain ⟨h1, h2, h3⟩ := truncationMetadata_invariant ("abc").toList 0 1 5 10 [⟨0, 1⟩]
  exact ⟨(h1 (by decide)).1, ((h1 (by decide)).2.1).trans (by decide),
    ((h3 (by decide)).2.1).trans (by decide), (h2 (by decide)).1⟩

/-- C9 as stated is false at one edge: on the empty document (which is below
the `radius * 3` threshold) with a non-empty match list, the source returns
`matchPositions = []` instead of the input matches. -/
theorem multiMatch_noop_counterexample :
    ((([] : List Char)).length : Int) ≤ 200 * 3 ∧
    (extractMultiMatchSnippet ([] : List Char) [⟨0, 0⟩] 200).matchPositions ≠
      [(⟨0, 0⟩ : Range)].map Range.toRat := by
  exact ⟨by decide, by decide⟩

/-- C9 (amended): below the relevant threshold each operation is the identity
on the document with `content_truncated = false`; `extractMultiMatchSnippet`
moreover returns `matchPositions` equal to the input matches provided the
document is non-empty or the match list is empty (on an empty document with a
non-empty match list it returns `matchPositions = []` instead). -/
theorem noop_below_threshold (content : List Char)
    (matchStart matchEnd snippetSize maxLength : Int) (matchList : List Range) :
    ((content.length : Int) ≤ snippetSize * 2 + (matchEnd - matchStart) →
      (extractSnippet content matchStart matchEnd snippetSize).snippet = content ∧
      (extractSnippet content matchStart matchEnd snippetSize).metadata.content_truncated = false) ∧
    ((content.length : Int) ≤ snippetSize * 3 → (content ≠ [] ∨ matchList = []) →
      (extractMultiMatchSnippet content matchList snippetSize).snippet = content ∧
      (extractMultiMatchSnippet content matchList snippetSize).metadata.content_truncated = false ∧
      (extractMultiMatchSnippet content matchList snippetSize).matchPositions =
        matchList.map Range.toRat) ∧
    ((content.length : Int) ≤ maxLength →
      (applyContentLimit content maxLength).content = content ∧
      (applyContentLimit content maxLength).metadata.content_truncated = false) := by
  refine ⟨?_, ?_, ?_⟩
  · intro h
    unfold extractSnippet
    split
    · rename_i h0
      have hc : content = [] := List.length_eq_zero.mp h0
      subst hc
      exact ⟨rfl, rfl⟩
    · dsimp only
      split
      · exact ⟨rfl, rfl⟩
      · rename_i hguard
        exact absurd h hguard
  · intro h hne
    unfold extractMultiMatchSnippet
    split
    · rename_i h0
      have hml : matchList = [] := by
        rcases h0 with h0 | h0
        · rcases hne with hne | hne
          · exact absurd (List.length_eq_zero.mp h0) hne
          · exact hne
        · simpa using h0
      subst hml
      exact ⟨rfl, rfl, by simp⟩
    · dsimp only
      split
      · exact ⟨rfl, rfl, rfl⟩
      · rename_i hguard
        exact absurd h hguard
  · intro h
    unfold applyContentLimit
    split
    · exact ⟨rfl, rfl⟩
    · rename_i hguard
      exact absurd (Or.inr h) hguard

/-- Witness for the amended C9 on a short document. -/
theorem noop_below_threshold_witness :
    (extractSnippet ("abc").toList 1 2 200).snippet = ("abc").toList ∧
    (extractMultiMatchSnippet ("abc").toList [⟨1, 2⟩] 200).matchPositions =
      ([⟨1, 2⟩] : List Range).map Range.toRat ∧
    (applyContentLimit ("abc").toList 10).content = ("abc").toList := by
  obtain ⟨h1, h2, h3⟩ := noop_below_threshold ("abc").toList 1 2 200 10 [⟨1, 2⟩]
  exact ⟨(h1 (by decide)).1, (h2 (by decide) (Or.inl (by decide))).2.2, (h3 (by decide)).1⟩

/-- C5 as stated is false of `applyContentLimit` itself: at `maxLength = 0` a
non-empty document is truncated to just the ellipsis marker with
`content_truncated = true` and `truncation_type = length`, not returned
verbatim. -/
theorem applyContentLimit_zero_counterexample :
    (applyContentLimit ("abc").toList 0).content = ellipsis ∧
    (applyContentLimit ("abc").toList 0).content ≠ ("abc").toList ∧
    (applyContentLimit ("abc").toList 0).metadata.content_truncated = true ∧
    (applyContentLimit ("abc").toList 0).metadata.truncation_type = TruncationType.length := by
  exact ⟨by decide, by decide, by decide, by decide⟩

/-- C5 (amended): the `0 means unlimited` semantics is implemented by the
caller: `BaseReader.searchMessages` invokes the limiter only when
`maxContentLength > 0`, so with max-length 0 every document passes through
verbatim, with no truncation metadata attached. -/
theorem fullModeProcess_zero_unlimited (content : List Char) :
    fullModeProcess content 0 = (content, Option.none) := by
  unfold fullModeProcess
  rw [if_neg (by omega)]

/-- The C1 failing input: a 50-character document and three in-bounds matches
(two close together near the start, one far away), with radius 5. -/
def C1content : List Char := ("ab cd ef gh ij kl mn op qr st uv wx yz 01 23 45 67").toList

/-- The three match ranges of the C1 failing input. -/
def C1matches : List Range := [⟨2, 4⟩, ⟨6, 8⟩, ⟨40, 42⟩]

/-- Evaluation of the remapping loop on the C1 failing input: there are two
consolidated windows `[0,13)` and `[35,47)` and the combined excerpt has 36
characters, so after each match the loop adds the approximate offset
`36 / 2 + 7 = 25` instead of the exact cumulative emitted length; the second
and third matches are reported at 31 and 55 instead of their true excerpt
offsets 6 and 26. -/
theorem multiAdjusted_C1_eval : multiAdjusted C1content C1matches 5 =
    ([⟨2, 4⟩, ⟨31, 33⟩, ⟨55, 57⟩] : List RatRange) := by
  have hm : multiMerged C1content C1matches 5 = [⟨0, 13⟩, ⟨35, 47⟩] := by decide
  have hc : (multiCombined C1content C1matches 5).length = 36 := by decide
  have hf1 : findContaining ⟨2, 4⟩ 0 [⟨0, 13⟩, ⟨35, 47⟩] = Option.some (0, ⟨0, 13⟩) := by decide
  have hf2 : findContaining ⟨6, 8⟩ 0 [⟨0, 13⟩, ⟨35, 47⟩] = Option.some (0, ⟨0, 13⟩) := by decide
  have hf3 : findContaining ⟨40, 42⟩ 0 [⟨0, 13⟩, ⟨35, 47⟩] = Option.some (1, ⟨35, 47⟩) := by decide
  have hw1 : findWordBoundary C1content 0 Direction.backward = 0 := by decide
  have hw2 : findWordBoundary C1content 35 Direction.backward = 35 := by decide
  unfold multiAdjusted
  rw [hm, hc]
  rw [show C1matches = [(⟨2, 4⟩ : Range), ⟨6, 8⟩, ⟨40, 42⟩] from rfl]
  simp only [adjustGo, hf1, hf2, hf3, hw1, hw2]
  norm_num

/-- C1 (against the source): the truncating branch of
`extractMultiMatchSnippet` does not remap match positions exactly.  At the
C1 failing input the second match's text (which really sits at excerpt
offset 6, where the excerpt equals the match text) is reported at offset 31,
where the excerpt text differs from the match text, and the third match is
reported at offset 55, beyond the end of the 36-character excerpt. -/
theorem extractMultiMatchSnippet_positions_inexact :
    (extractMultiMatchSnippet C1content C1matches 5).matchPositions =
      ([⟨2, 4⟩, ⟨31, 33⟩, ⟨55, 57⟩] : List RatRange) ∧
    jsSubstring (extractMultiMatchSnippet C1content C1matches 5).snippet 6 8 =
      jsSubstring C1content 6 8 ∧
    jsSubstring (extractMultiMatchSnippet C1content C1matches 5).snippet 31 33 ≠
      jsSubstring C1content 6 8 ∧
    ((extractMultiMatchSnippet C1content C1matches 5).snippet.length : Int) < 55 := by
  refine ⟨?_, by decide, by decide, by decide⟩
  unfold extractMultiMatchSnippet
  rw [if_neg (by decide)]
  dsimp only
  rw [if_neg (by decide)]
  dsimp only
  rw [multiAdjusted_C1_eval]
  rw [if_neg (by decide)]

end ChatSearch
